import Mathlib

/-!
# securebytes: authenticated encryption of serialised values

A shallow embedding of `main.go` (package `securebytes`).

Go byte slices are lists of bytes; a `nil` slice and an empty slice are both the
empty list.  A Go result pair `([]byte, error)` whose error branch always carries
a `nil` slice is an `Except Error Bytes`; `error` results alone are `Option Error`
(`none` is Go's `nil` error).

`main.go` calls into the Go standard library (`crypto/sha256`, `crypto/aes`,
`crypto/cipher`, `crypto/rand`, `encoding/base64`) and into the `Serializer`
interface declared elsewhere in the package.  These are parameters of the
embedding: the structure `Lib` bundles the library entry points, and what the
library documents about them is stated as named predicates on `Lib`, which the
theorems take as hypotheses only where they are needed.  The library's panics
(a nonce of the wrong length, a plaintext beyond GCM's size limit) are not part
of the model: `Seal` is a total function.
-/

set_option linter.dupNamespace false

namespace securebytes

/-- One byte. -/
abbrev Byte := Fin 256

/-- A Go `[]byte`. -/
abbrev Bytes := List Byte

/-- Go `error` values that reach the functions of `main.go`. -/
inductive Error where
  /-- An error made by `errors.New` with the given message. -/
  | new (msg : String)
  /-- The `aes.KeySizeError` for a key of the given length. -/
  | keySize (len : Nat)
  /-- The error of `cipher.NewGCM` for a cipher whose block size is not 128 bits. -/
  | gcmBlockSize
  /-- The error of `AEAD.Open`: message authentication failed. -/
  | openFailed
  /-- A failure reported by `rand.Read`. -/
  | random (code : Nat)
  /-- The `base64.CorruptInputError` at the given offset. -/
  | corruptInput (offset : Nat)
  /-- An error returned by a serializer. -/
  | serializer (code : Nat)
  deriving DecidableEq, Repr

deriving instance DecidableEq for Except

/-- The interface `cipher.AEAD`, with the methods `main.go` calls. -/
structure AEAD where
  /-- The method `NonceSize()`. -/
  NonceSize : Nat
  /-- The method `Overhead()`: how much longer a sealed payload is than its plaintext. -/
  Overhead : Nat
  /-- The method `Seal(dst, nonce, plaintext, additionalData)`. -/
  Seal : Bytes → Bytes → Bytes → Bytes → Bytes
  /-- The method `Open(dst, nonce, ciphertext, additionalData)`. -/
  Open : Bytes → Bytes → Bytes → Bytes → Except Error Bytes

/-- The standard-library functions `main.go` imports. -/
structure Lib where
  /-- The type of `cipher.Block` values. -/
  Block : Type
  /-- The function `sha256.Sum256`, whose result type is `[32]byte`. -/
  sha256Sum256 : Bytes → { h : Bytes // h.length = 32 }
  /-- The function `aes.NewCipher`. -/
  aesNewCipher : Bytes → Except Error Block
  /-- The function `cipher.NewGCM`. -/
  cipherNewGCM : Block → Except Error AEAD
  /-- The method `base64.StdEncoding.EncodeToString`. -/
  base64EncodeToString : Bytes → String
  /-- The method `base64.StdEncoding.DecodeString`. -/
  base64DecodeString : String → Except Error Bytes

/-- The outcome of one call of `rand.Read`: the source fails, or it delivers the
bytes `bytes 0, bytes 1, ...` in this order. -/
inductive RandSource where
  | fail (e : Error)
  | bytes (s : Nat → Byte)

/-- The call `rand.Read(buf)`: on success every byte of the buffer is overwritten
with a byte of the source, so the result is as long as the buffer. -/
def randRead (r : RandSource) (buf : Bytes) : Except Error Bytes :=
  match r with
  | .fail e => .error e
  | .bytes s => .ok ((List.range buf.length).map s)

/-- The Go expression `make([]byte, n)`: `n` zero bytes. -/
def make (n : Nat) : Bytes := List.replicate n 0

/-- The interface `Serializer` over values of type `α`.  `Encode(w, v)` appends to
the writer `w` and may fail; `Decode(r, out)` reads `r` into `out` and may fail,
returning the error and what `out` holds afterwards. -/
structure Serializer (α : Type) where
  Encode : Bytes → α → Bytes × Option Error
  Decode : Bytes → α → Option Error × α

/-- The struct `SecureBytes`: encryption key and serializer. -/
structure SecureBytes (α : Type) where
  aesKey : Bytes
  additionalData : Bytes
  Serializer : Serializer α

variable {α : Type}

/-- The function `New`; `JSONSerializer` is the package's JSON serializer. -/
def New (L : Lib) (JSONSerializer : Serializer α) (key : Bytes) : SecureBytes α :=
  let hash := L.sha256Sum256 key
  { aesKey := hash.val.take 24
    additionalData := hash.val.drop 24
    Serializer := JSONSerializer }

/-- The method `RawEncrypt`; `r` is what the random source does at this call. -/
def RawEncrypt (L : Lib) (sb : SecureBytes α) (r : RandSource) (data : Bytes) :
    Except Error Bytes :=
  match L.aesNewCipher sb.aesKey with
  | .error err => .error err
  | .ok block =>
    match L.cipherNewGCM block with
    | .error err => .error err
    | .ok gcm =>
      let nonce := make gcm.NonceSize
      match randRead r nonce with
      | .error err => .error err
      | .ok nonce =>
        let ciphertext := gcm.Seal nonce nonce data sb.additionalData
        .ok ciphertext

/-- The method `Encrypt`. -/
def Encrypt (L : Lib) (sb : SecureBytes α) (r : RandSource) (input : α) :
    Except Error Bytes :=
  match sb.Serializer.Encode [] input with
  | (_, some err) => .error err
  | (data, none) => RawEncrypt L sb r data

/-- The method `RawDecrypt`. -/
def RawDecrypt (L : Lib) (sb : SecureBytes α) (data : Bytes) : Except Error Bytes :=
  match L.aesNewCipher sb.aesKey with
  | .error err => .error err
  | .ok block =>
    match L.cipherNewGCM block with
    | .error err => .error err
    | .ok gcm =>
      let nonceSize := gcm.NonceSize
      if data.length < nonceSize then
        .error (.new "data smaller than nonce")
      else
        let nonce := data.take nonceSize
        let ciphertext := data.drop nonceSize
        gcm.Open [] nonce ciphertext sb.additionalData

/-- The method `Decrypt`: the error it returns and what `output` holds afterwards. -/
def Decrypt (L : Lib) (sb : SecureBytes α) (data : Bytes) (output : α) :
    Option Error × α :=
  match RawDecrypt L sb data with
  | .error err => (some err, output)
  | .ok plaintext => sb.Serializer.Decode plaintext output

/-- The method `EncryptToBase64`: the string and the error it returns. -/
def EncryptToBase64 (L : Lib) (sb : SecureBytes α) (r : RandSource) (input : α) :
    String × Option Error :=
  match Encrypt L sb r input with
  | .error err => (L.base64EncodeToString [], some err)
  | .ok ciphertext => (L.base64EncodeToString ciphertext, none)

/-- The method `RawEncryptToBase64`: the string and the error it returns. -/
def RawEncryptToBase64 (L : Lib) (sb : SecureBytes α) (r : RandSource) (data : Bytes) :
    String × Option Error :=
  match RawEncrypt L sb r data with
  | .error err => (L.base64EncodeToString [], some err)
  | .ok ciphertext => (L.base64EncodeToString ciphertext, none)

/-- The method `DecryptBase64`: the error it returns and what `output` holds afterwards. -/
def DecryptBase64 (L : Lib) (sb : SecureBytes α) (b64 : String) (output : α) :
    Option Error × α :=
  match L.base64DecodeString b64 with
  | .error err => (some err, output)
  | .ok data => Decrypt L sb data output

/-- The method `RawDecryptBase64`. -/
def RawDecryptBase64 (L : Lib) (sb : SecureBytes α) (b64 : String) : Except Error Bytes :=
  match L.base64DecodeString b64 with
  | .error err => .error err
  | .ok data => RawDecrypt L sb data

/-! ## What the standard library documents -/

/-- The AEAD that `aes.NewCipher` followed by `cipher.NewGCM` builds from `key`,
when both succeed. -/
def Lib.gcmOf (L : Lib) (key : Bytes) (gcm : AEAD) : Prop :=
  ∃ block, L.aesNewCipher key = .ok block ∧ L.cipherNewGCM block = .ok gcm

/-- Package `crypto/aes`: `NewCipher` accepts every key of 16, 24 or 32 bytes.
Package `crypto/cipher`: `NewGCM` accepts every AES cipher and returns GCM with the
standard nonce size 12 and tag size 16. -/
def CipherInit (L : Lib) : Prop :=
  ∀ key : Bytes, key.length = 16 ∨ key.length = 24 ∨ key.length = 32 →
    ∃ gcm, L.gcmOf key gcm ∧ gcm.NonceSize = 12 ∧ gcm.Overhead = 16

/-- Package `crypto/cipher`: `Seal` appends the sealed payload to `dst` and returns
the extended slice; the payload is `Overhead()` bytes longer than the plaintext. -/
def SealAppends (L : Lib) : Prop :=
  ∀ key gcm, L.gcmOf key gcm → ∀ dst nonce plaintext ad : Bytes,
    nonce.length = gcm.NonceSize →
      gcm.Seal dst nonce plaintext ad = dst ++ gcm.Seal [] nonce plaintext ad ∧
      (gcm.Seal [] nonce plaintext ad).length = plaintext.length + gcm.Overhead

/-- Package `crypto/cipher`: `Open` with the nonce and additional data that were
given to `Seal` returns the plaintext that was sealed. -/
def OpenInvertsSeal (L : Lib) : Prop :=
  ∀ key gcm, L.gcmOf key gcm → ∀ nonce plaintext ad : Bytes,
    nonce.length = gcm.NonceSize →
      gcm.Open [] nonce (gcm.Seal [] nonce plaintext ad) ad = .ok plaintext

/-- Package `encoding/base64`: `DecodeString` returns the bytes that were given to
`EncodeToString`. -/
def Base64Inverts (L : Lib) : Prop :=
  ∀ b : Bytes, L.base64DecodeString (L.base64EncodeToString b) = .ok b

/-! ## A small executable library

An instance of `Lib` on which the definitions above evaluate: a padding "digest",
a cipher that authenticates with a tag built from key, nonce and additional data,
and a one-character-per-byte text encoding.  It serves to evaluate the embedding
on concrete inputs; it is not a model of SHA-256, AES-GCM or base64. -/

namespace demo

/-- The first 32 bytes of the key padded with zeros. -/
def sum (key : Bytes) : { h : Bytes // h.length = 32 } :=
  ⟨(key ++ List.replicate 32 0).take 32, by simp⟩

/-- The 16-byte tag: byte `i` adds up byte `i` of key, nonce and additional data. -/
def tag (key nonce ad : Bytes) : Bytes :=
  (List.range 16).map fun i => key.getD i 0 + nonce.getD i 0 + ad.getD i 0 + 1

/-- The plaintext in clear, followed by the tag. -/
def sealWith (key dst nonce plaintext ad : Bytes) : Bytes :=
  dst ++ (plaintext ++ tag key nonce ad)

/-- The payload without its last 16 bytes, when these are the expected tag. -/
def openWith (key dst nonce ciphertext ad : Bytes) : Except Error Bytes :=
  if ciphertext.length < 16 then .error .openFailed
  else if ciphertext.drop (ciphertext.length - 16) = tag key nonce ad then
    .ok (dst ++ ciphertext.take (ciphertext.length - 16))
  else .error .openFailed

/-- The cipher over `key`. -/
def gcm (key : Bytes) : AEAD :=
  { NonceSize := 12, Overhead := 16, Seal := sealWith key, Open := openWith key }

/-- Keys of 16, 24 or 32 bytes are accepted. -/
def newCipher (key : Bytes) : Except Error Bytes :=
  if key.length = 16 ∨ key.length = 24 ∨ key.length = 32 then .ok key
  else .error (.keySize key.length)

/-- One character per byte. -/
def encodeToString (b : Bytes) : String :=
  String.mk (b.map fun x => Char.ofNat x.val)

/-- The bytes of the characters, all of which must be below 256. -/
def decodeChars : List Char → Nat → Except Error Bytes
  | [], _ => .ok []
  | c :: cs, i =>
    if h : c.toNat < 256 then
      match decodeChars cs (i + 1) with
      | .ok bs => .ok (⟨c.toNat, h⟩ :: bs)
      | .error e => .error e
    else .error (.corruptInput i)

/-- The inverse of `encodeToString`. -/
def decodeString (s : String) : Except Error Bytes :=
  decodeChars s.data 0

/-- The library made of the definitions above. -/
def lib : Lib :=
  { Block := Bytes
    sha256Sum256 := sum
    aesNewCipher := newCipher
    cipherNewGCM := fun key => .ok (gcm key)
    base64EncodeToString := encodeToString
    base64DecodeString := decodeString }

/-- The struct `testStruct` of `main_test.go`. -/
structure testStruct where
  UserID : Int
  Message : String
  deriving DecidableEq

/-- The value `secret` of `main_test.go`. -/
def secret : testStruct := ⟨123123123, "secret"⟩

/-- The `n` low bytes of `x`, lowest first. -/
def leBytes : Nat → Nat → Bytes
  | 0, _ => []
  | n + 1, x => Fin.ofNat (x % 256) :: leBytes n (x / 256)

/-- The number whose bytes, lowest first, are given. -/
def leValue : Bytes → Nat
  | [] => 0
  | b :: bs => b.val + 256 * leValue bs

/-- A serializer for `testStruct`: eight bytes of `UserID`, then one byte per
character of `Message`. -/
def serializer : Serializer testStruct :=
  { Encode := fun w v =>
      if v.UserID < 0 ∨ 2 ^ 64 ≤ v.UserID then (w, some (.serializer 1))
      else
        match decodeChars v.Message.data 0 with
        | .error _ => (w, some (.serializer 2))
        | .ok bs => (w ++ (leBytes 8 v.UserID.toNat ++ bs), none)
    Decode := fun r out =>
      if r.length < 8 then (some (.serializer 3), out)
      else (none, ⟨(leValue (r.take 8) : Nat), encodeToString (r.drop 8)⟩) }

/-- A random source that delivers 1, 2, 3, ... -/
def counting : RandSource := .bytes fun i => Fin.ofNat (i + 1)

/-- A random source that delivers 7, 7, 7, ... -/
def sevens : RandSource := .bytes fun _ => 7

/-- The blob of `secret` under the nil key and the nonce 1, 2, ..., 12. -/
def blobCounting : Bytes :=
  [1, 2, 3, 4, 5, 6, 7, 8, 9, 10, 11, 12, 179, 181, 86, 7, 0, 0, 0, 0,
    115, 101, 99, 114, 101, 116, 2, 3, 4, 5, 6, 7, 8, 9, 10, 11, 12, 13, 1, 1, 1, 1]

/-- The blob of `secret` under the nil key and the nonce 7, 7, ..., 7. -/
def blobSevens : Bytes :=
  [7, 7, 7, 7, 7, 7, 7, 7, 7, 7, 7, 7, 179, 181, 86, 7, 0, 0, 0, 0,
    115, 101, 99, 114, 101, 116, 8, 8, 8, 8, 8, 8, 8, 8, 8, 8, 8, 8, 1, 1, 1, 1]

end demo

/-! ## The small library obeys what the standard library documents -/

theorem demo.gcmOf_iff (key : Bytes) (g : AEAD) :
    demo.lib.gcmOf key g ↔
      (key.length = 16 ∨ key.length = 24 ∨ key.length = 32) ∧ g = demo.gcm key := by
  unfold Lib.gcmOf
  simp only [demo.lib, demo.newCipher]
  constructor
  · rintro ⟨block, hb, hg⟩
    split at hb
    · rename_i hk
      simp only [Except.ok.injEq] at hb hg
      subst hb
      exact ⟨hk, hg.symm⟩
    · simp at hb
  · rintro ⟨hk, rfl⟩
    exact ⟨key, by simp [hk], rfl⟩

theorem demo.tag_length (key nonce ad : Bytes) : (demo.tag key nonce ad).length = 16 := by
  simp [demo.tag]

theorem demo.cipherInit : CipherInit demo.lib := by
  intro key hk
  exact ⟨demo.gcm key, (demo.gcmOf_iff key _).2 ⟨hk, rfl⟩, rfl, rfl⟩

theorem demo.sealAppends : SealAppends demo.lib := by
  intro key g hg dst nonce plaintext ad _
  obtain ⟨-, rfl⟩ := (demo.gcmOf_iff key g).1 hg
  simp [demo.gcm, demo.sealWith, demo.tag_length]

theorem demo.openInvertsSeal : OpenInvertsSeal demo.lib := by
  intro key g hg nonce plaintext ad _
  obtain ⟨-, rfl⟩ := (demo.gcmOf_iff key g).1 hg
  have ht := demo.tag_length key nonce ad
  simp only [demo.gcm, demo.sealWith, demo.openWith, List.nil_append, List.length_append, ht,
    Nat.add_sub_cancel, List.drop_left, List.take_left]
  simp

theorem demo.toNat_ofNat (x : Byte) : (Char.ofNat x.val).toNat = x.val := by
  have h : x.val.isValidChar := Or.inl (by omega)
  simp [Char.ofNat, h, Char.ofNatAux]
  rfl

theorem demo.decodeChars_map (b : Bytes) (i : Nat) :
    demo.decodeChars (b.map fun x => Char.ofNat x.val) i = .ok b := by
  induction b generalizing i with
  | nil => rfl
  | cons x xs ih =>
    have hx : (Char.ofNat x.val).toNat < 256 := by
      rw [demo.toNat_ofNat]; exact x.isLt
    simp only [List.map_cons, demo.decodeChars, hx, dite_true, ih]
    congr 2
    exact Fin.ext (demo.toNat_ofNat x)

theorem demo.base64Inverts : Base64Inverts demo.lib := by
  intro b
  exact demo.decodeChars_map b 0

/-! ## Facts about the embedding -/

theorem randRead_length {r : RandSource} {buf nonce : Bytes}
    (h : randRead r buf = .ok nonce) : nonce.length = buf.length := by
  cases r with
  | fail e => simp [randRead] at h
  | bytes s =>
    simp only [randRead, Except.ok.injEq] at h
    subst h
    simp

theorem make_length (n : Nat) : (make n).length = n := by
  simp [make]

theorem New_aesKey_length (L : Lib) (J : Serializer α) (key : Bytes) :
    (New L J key).aesKey.length = 24 := by
  simp [New, (L.sha256Sum256 key).property]

theorem New_additionalData_length (L : Lib) (J : Serializer α) (key : Bytes) :
    (New L J key).additionalData.length = 8 := by
  simp [New, (L.sha256Sum256 key).property]

/-- With the cipher built, `RawEncrypt` is the random read followed by `Seal`. -/
theorem RawEncrypt_of_gcm {L : Lib} {sb : SecureBytes α} {gcm : AEAD}
    (hg : L.gcmOf sb.aesKey gcm) (r : RandSource) (data : Bytes) :
    RawEncrypt L sb r data =
      match randRead r (make gcm.NonceSize) with
      | .error err => .error err
      | .ok nonce => .ok (gcm.Seal nonce nonce data sb.additionalData) := by
  obtain ⟨block, hb, hgcm⟩ := hg
  simp only [RawEncrypt, hb, hgcm]

/-- With the cipher built, `RawDecrypt` is the length guard followed by `Open`. -/
theorem RawDecrypt_of_gcm {L : Lib} {sb : SecureBytes α} {gcm : AEAD}
    (hg : L.gcmOf sb.aesKey gcm) (data : Bytes) :
    RawDecrypt L sb data =
      if data.length < gcm.NonceSize then .error (.new "data smaller than nonce")
      else gcm.Open [] (data.take gcm.NonceSize) (data.drop gcm.NonceSize)
        sb.additionalData := by
  obtain ⟨block, hb, hgcm⟩ := hg
  simp only [RawDecrypt, hb, hgcm]

/-- A successful `RawEncrypt` built the cipher, drew a nonce of the cipher's nonce
size and returned what `Seal` made of it. -/
theorem RawEncrypt_ok {L : Lib} {sb : SecureBytes α} {r : RandSource} {data blob : Bytes}
    (h : RawEncrypt L sb r data = .ok blob) :
    ∃ gcm nonce, L.gcmOf sb.aesKey gcm ∧ randRead r (make gcm.NonceSize) = .ok nonce ∧
      nonce.length = gcm.NonceSize ∧
      blob = gcm.Seal nonce nonce data sb.additionalData := by
  unfold RawEncrypt at h
  split at h
  · simp at h
  · rename_i block hb
    split at h
    · simp at h
    · rename_i gcm hgcm
      cases hn : randRead r (make gcm.NonceSize) with
      | error e => simp [hn] at h
      | ok nonce =>
        simp only [hn, Except.ok.injEq] at h
        exact ⟨gcm, nonce, ⟨block, hb, hgcm⟩, hn,
          (randRead_length hn).trans (make_length _), h.symm⟩

/-- The raw round trip on any instance, whatever its key material. -/
theorem RawDecrypt_RawEncrypt {L : Lib} (hS : SealAppends L) (hO : OpenInvertsSeal L)
    (sb : SecureBytes α) {r : RandSource} {data blob : Bytes}
    (h : RawEncrypt L sb r data = .ok blob) : RawDecrypt L sb blob = .ok data := by
  obtain ⟨gcm, nonce, hg, -, hlen, rfl⟩ := RawEncrypt_ok h
  rw [RawDecrypt_of_gcm hg, (hS _ _ hg nonce nonce data sb.additionalData hlen).1]
  have h1 : ¬ (nonce ++ gcm.Seal [] nonce data sb.additionalData).length < gcm.NonceSize := by
    simp [hlen]
  rw [if_neg h1, ← hlen, List.take_left, List.drop_left]
  exact hO _ _ hg nonce data sb.additionalData hlen

/-- Infinitely many keys share 2^256 digests, so two different keys have the same one. -/
theorem exists_digest_collision (L : Lib) :
    ∃ k1 k2 : Bytes, k1 ≠ k2 ∧ L.sha256Sum256 k1 = L.sha256Sum256 k2 := by
  haveI : Finite { h : Bytes // h.length = 32 } :=
    (inferInstance : Finite (Mathlib.Vector Byte 32))
  exact Finite.exists_ne_map_eq_of_infinite L.sha256Sum256

/-- The instance keeps only the digest of its key, so `New` is not injective: two
different keys with the same digest give the same instance. -/
theorem New_not_injective (L : Lib) (J : Serializer α) :
    ∃ k1 k2 : Bytes, k1 ≠ k2 ∧ New L J k1 = New L J k2 := by
  obtain ⟨k1, k2, hne, heq⟩ := exists_digest_collision L
  exact ⟨k1, k2, hne, by simp only [New, heq]⟩

/-- On an instance made by `New` the cipher is built, with nonce size 12 and tag size 16. -/
theorem New_gcm {L : Lib} (hC : CipherInit L) (J : Serializer α) (key : Bytes) :
    ∃ gcm, L.gcmOf (New L J key).aesKey gcm ∧ gcm.NonceSize = 12 ∧ gcm.Overhead = 16 :=
  hC _ (Or.inr (Or.inl (New_aesKey_length L J key)))

/-- The cipher built from a key is unique. -/
theorem gcmOf_unique {L : Lib} {key : Bytes} {g g' : AEAD}
    (h : L.gcmOf key g) (h' : L.gcmOf key g') : g = g' := by
  obtain ⟨b, hb, hg⟩ := h
  obtain ⟨b', hb', hg'⟩ := h'
  rw [hb] at hb'
  cases hb'
  rw [hg] at hg'
  cases hg'
  rfl

/-- On an instance with a 24-byte key, a successful `RawEncrypt` returns the 12 bytes
read from the random source followed by the sealed payload. -/
theorem RawEncrypt_ok_of_key24 {L : Lib} (hC : CipherInit L) (hS : SealAppends L)
    {sb : SecureBytes α} (hk : sb.aesKey.length = 24) {r : RandSource} {d b : Bytes}
    (h : RawEncrypt L sb r d = .ok b) :
    ∃ gcm n, L.gcmOf sb.aesKey gcm ∧ gcm.NonceSize = 12 ∧
      randRead r (make 12) = .ok n ∧ n.length = 12 ∧
      b = n ++ gcm.Seal [] n d sb.additionalData := by
  obtain ⟨gcm, n, hg, hn, hlen, rfl⟩ := RawEncrypt_ok h
  obtain ⟨gcm', hg', hns, -⟩ := hC _ (Or.inr (Or.inl hk))
  cases gcmOf_unique hg hg'
  exact ⟨gcm, n, hg, hns, hns ▸ hn, hlen.trans hns,
    (hS _ _ hg n n d sb.additionalData hlen).1⟩

/-! ## The claims -/

/-- C1, value round trip: for every key `k`, value `v`, serializer `S` whose `Decode`
returns `v` from the bytes its `Encode` wrote for `v`, and every outcome of the random
source, if `Encrypt(v)` on `New(k)` with serializer `S` returns a blob `b` without
error, then `Decrypt(b, out)` on the same instance returns no error and leaves `v`
in `out`. -/
theorem Decrypt_Encrypt_round_trip (L : Lib) (hS : SealAppends L) (hO : OpenInvertsSeal L)
    (J S : Serializer α) (k : Bytes) (r : RandSource) (v out : α) (b : Bytes)
    (hser : (S.Encode [] v).2 = none → S.Decode (S.Encode [] v).1 out = (none, v))
    (henc : Encrypt L { New L J k with Serializer := S } r v = .ok b) :
    Decrypt L { New L J k with Serializer := S } b out = (none, v) := by
  unfold Encrypt at henc
  cases he : S.Encode [] v with
  | mk data err =>
    simp only [he] at henc hser
    cases err with
    | some e => simp at henc
    | none =>
      simp only at henc
      simp only [Decrypt, RawDecrypt_RawEncrypt hS hO _ henc]
      exact hser rfl

theorem Decrypt_Encrypt_round_trip_witness :
    Encrypt demo.lib { New demo.lib demo.serializer [] with Serializer := demo.serializer }
      demo.counting demo.secret = .ok demo.blobCounting ∧
    Decrypt demo.lib { New demo.lib demo.serializer [] with Serializer := demo.serializer }
      demo.blobCounting ⟨0, ""⟩ = (none, demo.secret) :=
  ⟨by decide,
    Decrypt_Encrypt_round_trip demo.lib demo.sealAppends demo.openInvertsSeal
      demo.serializer demo.serializer [] demo.counting demo.secret ⟨0, ""⟩
      demo.blobCounting (by decide) (by decide)⟩

/-- C2, base64 round trip: for every key (the nil key of the tests included), value
`v` and serializer `S` whose `Decode` returns `v` from the bytes its `Encode` wrote
for `v`, if `EncryptToBase64(v)` returns a string `s` without error, then
`DecryptBase64(s, out)` on the same instance returns no error and leaves `v` in
`out`. -/
theorem DecryptBase64_EncryptToBase64_round_trip (L : Lib) (hB : Base64Inverts L)
    (hS : SealAppends L) (hO : OpenInvertsSeal L)
    (J S : Serializer α) (k : Bytes) (r : RandSource) (v out : α) (s : String)
    (hser : (S.Encode [] v).2 = none → S.Decode (S.Encode [] v).1 out = (none, v))
    (henc : EncryptToBase64 L { New L J k with Serializer := S } r v = (s, none)) :
    DecryptBase64 L { New L J k with Serializer := S } s out = (none, v) := by
  unfold EncryptToBase64 at henc
  cases he : Encrypt L { New L J k with Serializer := S } r v with
  | error e => simp [he] at henc
  | ok b =>
    simp only [he, Prod.mk.injEq, and_true] at henc
    subst henc
    simp only [DecryptBase64, hB b]
    exact Decrypt_Encrypt_round_trip L hS hO J S k r v out b hser he

theorem DecryptBase64_EncryptToBase64_round_trip_witness :
    EncryptToBase64 demo.lib { New demo.lib demo.serializer [] with
        Serializer := demo.serializer } demo.sevens demo.secret =
      (demo.lib.base64EncodeToString demo.blobSevens, none) ∧
    DecryptBase64 demo.lib { New demo.lib demo.serializer [] with
        Serializer := demo.serializer }
      (demo.lib.base64EncodeToString demo.blobSevens) ⟨0, ""⟩ = (none, demo.secret) :=
  ⟨by decide,
    DecryptBase64_EncryptToBase64_round_trip demo.lib demo.base64Inverts demo.sealAppends
      demo.openInvertsSeal demo.serializer demo.serializer [] demo.sevens demo.secret
      ⟨0, ""⟩ (demo.lib.base64EncodeToString demo.blobSevens) (by decide) (by decide)⟩

/-- C3, raw round trip: for every key `k`, byte sequence `d` (the empty one included)
and outcome of the random source, if `RawEncrypt(d)` on `New(k)` returns a blob `b`
without error, then `RawDecrypt(b)` on the same instance returns exactly `d` and no
error. -/
theorem RawDecrypt_RawEncrypt_round_trip (L : Lib) (hS : SealAppends L)
    (hO : OpenInvertsSeal L) (J : Serializer α) (k d b : Bytes) (r : RandSource)
    (henc : RawEncrypt L (New L J k) r d = .ok b) :
    RawDecrypt L (New L J k) b = .ok d :=
  RawDecrypt_RawEncrypt hS hO _ henc

theorem RawDecrypt_RawEncrypt_round_trip_witness :
    RawEncrypt demo.lib (New demo.lib demo.serializer [5, 6]) demo.counting [] =
      .ok [1, 2, 3, 4, 5, 6, 7, 8, 9, 10, 11, 12,
        7, 9, 4, 5, 6, 7, 8, 9, 10, 11, 12, 13, 1, 1, 1, 1] ∧
    RawDecrypt demo.lib (New demo.lib demo.serializer [5, 6])
      [1, 2, 3, 4, 5, 6, 7, 8, 9, 10, 11, 12,
        7, 9, 4, 5, 6, 7, 8, 9, 10, 11, 12, 13, 1, 1, 1, 1] = .ok [] :=
  ⟨by decide,
    RawDecrypt_RawEncrypt_round_trip demo.lib demo.sealAppends demo.openInvertsSeal
      demo.serializer [5, 6] [] _ demo.counting (by decide)⟩

/-- C4, length guard: on every instance made by `New`, for every byte sequence `b`
shorter than the GCM nonce size 12, `RawDecrypt(b)` returns the error
"data smaller than nonce" and no plaintext, and `Decrypt(b, out)` returns the same
error and leaves `out` as it was.  Nothing is assumed about `Open` or about the
serializer, so neither is consulted; `take` and `drop` are not reached. -/
theorem RawDecrypt_short (L : Lib) (hC : CipherInit L) (J S : Serializer α)
    (k b : Bytes) (out : α) (hlen : b.length < 12) :
    RawDecrypt L (New L J k) b = .error (.new "data smaller than nonce") ∧
    Decrypt L { New L J k with Serializer := S } b out =
      (some (.new "data smaller than nonce"), out) := by
  obtain ⟨gcm, hg, hn, -⟩ := New_gcm hC J k
  have h1 : RawDecrypt L (New L J k) b = .error (.new "data smaller than nonce") := by
    rw [RawDecrypt_of_gcm hg, hn, if_pos hlen]
  have h2 : RawDecrypt L { New L J k with Serializer := S } b =
      .error (.new "data smaller than nonce") := h1
  exact ⟨h1, by simp only [Decrypt, h2]⟩

theorem RawDecrypt_short_witness :
    RawDecrypt demo.lib (New demo.lib demo.serializer [1, 2, 3])
      [1, 2, 3, 4, 5, 6, 7, 8, 9, 10, 11] = .error (.new "data smaller than nonce") ∧
    Decrypt demo.lib { New demo.lib demo.serializer [1, 2, 3] with
        Serializer := demo.serializer }
      [1, 2, 3, 4, 5, 6, 7, 8, 9, 10, 11] demo.secret =
      (some (.new "data smaller than nonce"), demo.secret) :=
  RawDecrypt_short demo.lib demo.cipherInit demo.serializer demo.serializer [1, 2, 3]
    [1, 2, 3, 4, 5, 6, 7, 8, 9, 10, 11] demo.secret (by decide)

/-- C5, wire format: on every instance made by `New`, for every byte sequence `d` and
every nonce `n` the random source returns, `RawEncrypt(d)` returns exactly `n`
followed by the GCM-sealed payload of `d` under `n` with the instance's associated
data; the first 12 bytes of the blob are `n` and the blob is `12 + len(d) + 16`
bytes long. -/
theorem RawEncrypt_wire_format (L : Lib) (hC : CipherInit L) (hS : SealAppends L)
    (J : Serializer α) (k d n : Bytes) (r : RandSource)
    (hn : randRead r (make 12) = .ok n) :
    ∃ gcm, L.gcmOf (New L J k).aesKey gcm ∧
      RawEncrypt L (New L J k) r d =
        .ok (n ++ gcm.Seal [] n d (New L J k).additionalData) ∧
      (n ++ gcm.Seal [] n d (New L J k).additionalData).take 12 = n ∧
      (n ++ gcm.Seal [] n d (New L J k).additionalData).length = 12 + d.length + 16 := by
  obtain ⟨gcm, hg, hns, hov⟩ := New_gcm hC J k
  have hlen : n.length = 12 := (randRead_length hn).trans (make_length 12)
  have hlen' : n.length = gcm.NonceSize := hlen.trans hns.symm
  obtain ⟨happ, hsl⟩ := hS _ _ hg n n d (New L J k).additionalData hlen'
  refine ⟨gcm, hg, ?_, ?_, ?_⟩
  · rw [RawEncrypt_of_gcm hg, hns, hn]
    simp only [happ]
  · rw [← hlen, List.take_left]
  · rw [List.length_append, hsl, hov, hlen]
    omega

theorem RawEncrypt_wire_format_witness :
    ∃ gcm, demo.lib.gcmOf (New demo.lib demo.serializer []).aesKey gcm ∧
      RawEncrypt demo.lib (New demo.lib demo.serializer []) demo.sevens [10, 20, 30] =
        .ok ([7, 7, 7, 7, 7, 7, 7, 7, 7, 7, 7, 7] ++
          gcm.Seal [] [7, 7, 7, 7, 7, 7, 7, 7, 7, 7, 7, 7] [10, 20, 30]
            (New demo.lib demo.serializer []).additionalData) ∧
      ([7, 7, 7, 7, 7, 7, 7, 7, 7, 7, 7, 7] ++
        gcm.Seal [] [7, 7, 7, 7, 7, 7, 7, 7, 7, 7, 7, 7] [10, 20, 30]
          (New demo.lib demo.serializer []).additionalData).take 12 =
        [7, 7, 7, 7, 7, 7, 7, 7, 7, 7, 7, 7] ∧
      ([7, 7, 7, 7, 7, 7, 7, 7, 7, 7, 7, 7] ++
        gcm.Seal [] [7, 7, 7, 7, 7, 7, 7, 7, 7, 7, 7, 7] [10, 20, 30]
          (New demo.lib demo.serializer []).additionalData).length = 12 + 3 + 16 :=
  RawEncrypt_wire_format demo.lib demo.cipherInit demo.sealAppends demo.serializer
    [] [10, 20, 30] [7, 7, 7, 7, 7, 7, 7, 7, 7, 7, 7, 7] demo.sevens (by decide)

/-- C6, key derivation: for every key `k`, the empty (nil) key included, `New(k)` is
an instance whose `aesKey` is the first 24 bytes and whose `additionalData` is the
remaining 8 bytes of SHA-256(`k`), so that `aesKey ++ additionalData` is the digest,
and whose `Serializer` is the JSON serializer; equal keys give equal instances. -/
theorem New_key_derivation (L : Lib) (J : Serializer α) (k : Bytes) :
    (New L J k).aesKey = (L.sha256Sum256 k).val.take 24 ∧
    (New L J k).aesKey.length = 24 ∧
    (New L J k).additionalData = (L.sha256Sum256 k).val.drop 24 ∧
    (New L J k).additionalData.length = 8 ∧
    (New L J k).aesKey ++ (New L J k).additionalData = (L.sha256Sum256 k).val ∧
    (New L J k).Serializer = J ∧
    ∀ k' : Bytes, k' = k → New L J k' = New L J k := by
  refine ⟨rfl, New_aesKey_length L J k, rfl, New_additionalData_length L J k, ?_, rfl, ?_⟩
  · simp [New]
  · rintro k' rfl
    rfl

/-- C7, malformed base64 is rejected first: on every instance, for every string `s`
that `base64.StdEncoding.DecodeString` rejects with an error `e`, `DecryptBase64(s,
out)` returns `e` and leaves `out` as it was, and `RawDecryptBase64(s)` returns `e`
and no plaintext.  Nothing is assumed about the cipher or the serializer, so neither
is consulted. -/
theorem DecryptBase64_malformed (L : Lib) (sb : SecureBytes α) (s : String) (out : α)
    (e : Error) (hbad : L.base64DecodeString s = .error e) :
    DecryptBase64 L sb s out = (some e, out) ∧ RawDecryptBase64 L sb s = .error e := by
  simp only [DecryptBase64, RawDecryptBase64, hbad, and_self]

theorem DecryptBase64_malformed_witness :
    DecryptBase64 demo.lib (New demo.lib demo.serializer []) "abcሴ" demo.secret =
      (some (.corruptInput 3), demo.secret) ∧
    RawDecryptBase64 demo.lib (New demo.lib demo.serializer []) "abcሴ" =
      .error (.corruptInput 3) :=
  DecryptBase64_malformed demo.lib (New demo.lib demo.serializer []) "abcሴ" demo.secret
    (.corruptInput 3) (by decide)

/-- C8, cipher initialisation cannot fail: on every instance made by `New` the derived
key has length 24, `aes.NewCipher` and `cipher.NewGCM` succeed on it, `RawDecrypt` is
the length guard followed by `Open`, and `RawEncrypt` returns the random source's
error when the source fails and a blob otherwise. -/
theorem RawEncrypt_error_only_from_rand (L : Lib) (hC : CipherInit L) (J : Serializer α)
    (k : Bytes) :
    (New L J k).aesKey.length = 24 ∧
    ∃ block gcm, L.aesNewCipher (New L J k).aesKey = .ok block ∧
      L.cipherNewGCM block = .ok gcm ∧
      (∀ b : Bytes, RawDecrypt L (New L J k) b =
        if b.length < 12 then .error (.new "data smaller than nonce")
        else gcm.Open [] (b.take 12) (b.drop 12) (New L J k).additionalData) ∧
      (∀ (d : Bytes) (e : Error), RawEncrypt L (New L J k) (.fail e) d = .error e) ∧
      (∀ (d : Bytes) (s : Nat → Byte), ∃ blob,
        RawEncrypt L (New L J k) (.bytes s) d = .ok blob) := by
  obtain ⟨gcm, hg, hns, -⟩ := New_gcm hC J k
  obtain ⟨block, hb, hgcm⟩ := id hg
  refine ⟨New_aesKey_length L J k, block, gcm, hb, hgcm, ?_, ?_, ?_⟩
  · intro b
    rw [RawDecrypt_of_gcm hg, hns]
  · intro d e
    rw [RawEncrypt_of_gcm hg]
    rfl
  · intro d s
    rw [RawEncrypt_of_gcm hg]
    exact ⟨_, rfl⟩

theorem RawEncrypt_error_only_from_rand_witness :
    (New demo.lib demo.serializer [9]).aesKey.length = 24 ∧
    ∃ block gcm, demo.lib.aesNewCipher (New demo.lib demo.serializer [9]).aesKey = .ok block ∧
      demo.lib.cipherNewGCM block = .ok gcm ∧
      (∀ b : Bytes, RawDecrypt demo.lib (New demo.lib demo.serializer [9]) b =
        if b.length < 12 then .error (.new "data smaller than nonce")
        else gcm.Open [] (b.take 12) (b.drop 12)
          (New demo.lib demo.serializer [9]).additionalData) ∧
      (∀ (d : Bytes) (e : Error),
        RawEncrypt demo.lib (New demo.lib demo.serializer [9]) (.fail e) d = .error e) ∧
      (∀ (d : Bytes) (s : Nat → Byte), ∃ blob,
        RawEncrypt demo.lib (New demo.lib demo.serializer [9]) (.bytes s) d = .ok blob) :=
  RawEncrypt_error_only_from_rand demo.lib demo.cipherInit demo.serializer [9]

/-- C10 as stated fails for every library: when the random source returns the same
12 bytes at both calls, the two blobs are the same. -/
theorem nonce_can_repeat :
    ¬ ∃ L : Lib, CipherInit L ∧
      ∀ (S : Serializer demo.testStruct) (k : Bytes) (v : demo.testStruct)
        (r1 r2 : RandSource) (b1 b2 : Bytes),
        Encrypt L (New L S k) r1 v = .ok b1 → Encrypt L (New L S k) r2 v = .ok b2 →
        b1.take 12 ≠ b2.take 12 ∧ b1 ≠ b2 := by
  rintro ⟨L, hC, h⟩
  obtain ⟨gcm, hg, -, -⟩ := New_gcm hC demo.serializer []
  have henc : Encrypt L (New L demo.serializer []) demo.sevens demo.secret =
      .ok (gcm.Seal ((List.range (make gcm.NonceSize).length).map fun _ => 7)
        ((List.range (make gcm.NonceSize).length).map fun _ => 7)
        (demo.serializer.Encode [] demo.secret).1
        (New L demo.serializer []).additionalData) := by
    have he : (New L demo.serializer []).Serializer.Encode [] demo.secret =
        ((demo.serializer.Encode [] demo.secret).1, none) := by
      show demo.serializer.Encode [] demo.secret = _
      decide
    simp only [Encrypt, he]
    rw [RawEncrypt_of_gcm hg]
    rfl
  exact (h demo.serializer [] demo.secret demo.sevens demo.sevens _ _ henc henc).2 rfl

/-- C10, amended: under one instance and for one value, the 12-byte nonce prefix of
each blob is exactly the 12 bytes that this call read from the random source, not
derived from the key, the data or a counter; the two blobs differ, in their prefixes
and as a whole, whenever the two reads differ, and they are the same blob when the
random source returns the same 12 bytes twice. -/
theorem Encrypt_nonce_from_rand (L : Lib) (hC : CipherInit L) (hS : SealAppends L)
    (J S : Serializer α) (k : Bytes) (v : α) (r1 r2 : RandSource) (b1 b2 : Bytes)
    (h1 : Encrypt L { New L J k with Serializer := S } r1 v = .ok b1)
    (h2 : Encrypt L { New L J k with Serializer := S } r2 v = .ok b2) :
    ∃ n1 n2, randRead r1 (make 12) = .ok n1 ∧ randRead r2 (make 12) = .ok n2 ∧
      b1.take 12 = n1 ∧ b2.take 12 = n2 ∧
      (n1 ≠ n2 → b1.take 12 ≠ b2.take 12 ∧ b1 ≠ b2) ∧ (n1 = n2 → b1 = b2) := by
  unfold Encrypt at h1 h2
  cases he : S.Encode [] v with
  | mk data err =>
    simp only [he] at h1 h2
    cases err with
    | some e => simp at h1
    | none =>
      simp only at h1 h2
      have hk : ({ New L J k with Serializer := S } : SecureBytes α).aesKey.length = 24 :=
        New_aesKey_length L J k
      obtain ⟨g1, n1, hg1, -, hr1, hl1, rfl⟩ := RawEncrypt_ok_of_key24 hC hS hk h1
      obtain ⟨g2, n2, hg2, -, hr2, hl2, rfl⟩ := RawEncrypt_ok_of_key24 hC hS hk h2
      cases gcmOf_unique hg1 hg2
      have t1 : ∀ x : Bytes, (n1 ++ x).take 12 = n1 := fun x => by
        rw [← hl1, List.take_left]
      have t2 : ∀ x : Bytes, (n2 ++ x).take 12 = n2 := fun x => by
        rw [← hl2, List.take_left]
      refine ⟨n1, n2, hr1, hr2, t1 _, t2 _, ?_, ?_⟩
      · intro hne
        rw [t1, t2]
        refine ⟨hne, fun hb => hne ?_⟩
        have := congrArg (List.take 12) hb
        rwa [t1, t2] at this
      · rintro rfl
        rfl

theorem Encrypt_nonce_from_rand_witness :
    ∃ n1 n2, randRead demo.counting (make 12) = .ok n1 ∧
      randRead demo.sevens (make 12) = .ok n2 ∧
      demo.blobCounting.take 12 = n1 ∧ demo.blobSevens.take 12 = n2 ∧
      (n1 ≠ n2 → demo.blobCounting.take 12 ≠ demo.blobSevens.take 12 ∧
        demo.blobCounting ≠ demo.blobSevens) ∧
      (n1 = n2 → demo.blobCounting = demo.blobSevens) :=
  Encrypt_nonce_from_rand demo.lib demo.cipherInit demo.sealAppends demo.serializer
    demo.serializer [] demo.secret demo.counting demo.sevens demo.blobCounting
    demo.blobSevens (by decide) (by decide)

end securebytes
